import Mathlib

/-!
Verification of the change-detection engine of the json-comparison repository.

The embedding follows the JavaScript sources:
  * `detectFunctionalChanges.js` — the legacy engine: `diffObjects`,
    `determinePriority`, `compareConnectors` (namespace `DFC`);
  * `src/advanced-comparator.js` (the second, documented `AdvancedComparator`
    class) — the modular engine: `validatePaths`, `listConnectors`, the
    per-connector try/catch loop of `compareConnectors` (namespace `AdvComp`).

JSON values are modelled as the inductive `JVal`; machine doubles of JS are
modelled as `Int` (no claim depends on float-specific behaviour).  The
recursive diff walks values through key lookup rather than structurally, so
it takes an explicit `Nat` fuel; the fuel-free entry point passes the node
count of the inputs, which strictly bounds the recursion depth, making the
zero-fuel base case unreachable (`diffD_fuel_irrelevant` below).
-/

/-- A parsed JSON value.  `num` uses `Int`: the concrete programs and claims
only involve integral numbers.  Object fields keep insertion order, as
`JSON.parse` does; parsed JSON has no duplicate keys and no aliasing. -/
inductive JVal where
  | null
  | bool (b : Bool)
  | num (n : Int)
  | str (s : String)
  | arr (elems : List JVal)
  | obj (fields : List (String × JVal))

mutual

/-- Node count of a JSON value; used as recursion fuel for the diff. -/
def jsizeV : JVal → Nat
  | .null => 1
  | .bool _ => 1
  | .num _ => 1
  | .str _ => 1
  | .arr es => 1 + jsizeL es
  | .obj fs => 1 + jsizeFlds fs

def jsizeL : List JVal → Nat
  | [] => 0
  | v :: vs => 1 + jsizeV v + jsizeL vs

def jsizeFlds : List (String × JVal) → Nat
  | [] => 0
  | (_, v) :: vs => 1 + jsizeV v + jsizeFlds vs

end

/-- JS truthiness of a JSON value (`!v` in `detectFunctionalChanges.js`):
`null`, `false`, `0` and `""` are falsy, everything else (including `[]`
and `{}`) is truthy.  `NaN` does not arise from parsed JSON with `Int`. -/
def jsTruthy : JVal → Bool
  | .null => false
  | .bool b => b
  | .num n => n != 0
  | .str s => s != ""
  | .arr _ => true
  | .obj _ => true

/-- JS `typeof` of a JSON value; `typeof null`, arrays and objects are all
`"object"`. -/
def jsTypeof : JVal → String
  | .null => "object"
  | .bool _ => "boolean"
  | .num _ => "number"
  | .str _ => "string"
  | .arr _ => "object"
  | .obj _ => "object"

/-- Does a string consist of decimal digits in canonical form (no leading
zero except `"0"` itself)?  These are exactly the strings JS treats as
array/string index keys. -/
def canonicalIndex? (k : String) : Option Nat :=
  let cs := k.toList
  if cs ≠ [] ∧ cs.all Char.isDigit ∧ (cs = ['0'] ∨ cs.head? ≠ some '0') then
    some (cs.foldl (fun a c => a * 10 + (c.toNat - '0'.toNat)) 0)
  else none

/-- `Object.keys(v || {})` of `detectFunctionalChanges.js`: own enumerable
keys.  Falsy values are replaced by `{}` first, but they have no own keys
anyway.  Objects give their field names in insertion order (JS would move
integer-like keys to the front; no claim involves numeric object keys, and
only the order, never the membership, could differ).  Arrays and strings
give their element indices `"0"`, `"1"`, … -/
def jsKeys : JVal → List String
  | .obj fs => fs.map (·.1)
  | .arr es => (List.range es.length).map Nat.repr
  | .str s => (List.range s.length).map Nat.repr
  | _ => []

/-- First-occurrence lookup in an association list (JS object property
access; parsed JSON has unique keys). -/
def lookupStr {α : Type} : List (String × α) → String → Option α
  | [], _ => none
  | (k', v) :: rest, k => if k' = k then some v else lookupStr rest k

/-- `v?.[key]` of the source: `undefined` is `none`.  Own-property access
on the JSON data: object fields by name, array elements and string
characters by canonical index.  (Prototype-inherited properties such as
`(5)["toString"]` are not modelled; no claim involves keys that collide
with prototype names.) -/
def jsGet : JVal → String → Option JVal
  | .obj fs, k => lookupStr fs k
  | .arr es, k => (canonicalIndex? k).bind fun i => es.get? i
  | .str s, k => (canonicalIndex? k).bind fun i =>
      (s.toList.get? i).map fun c => JVal.str (String.mk [c])
  | _, _ => none

/-- Replace the first field with the given name (JS property write;
parsed JSON has unique keys, so at most one field matches). -/
def setField : List (String × JVal) → String → JVal → List (String × JVal)
  | [], _, _ => []
  | (k', v') :: rest, k, v =>
      if k' = k then (k', v) :: rest else (k', v') :: setField rest k v

/-- In-place update of the subvalue at a key (the effect of the JS `sort()`
mutation propagated back into the holding container).  Non-containers are
left unchanged. -/
def jsSet : JVal → String → JVal → JVal
  | .obj fs, k, v => .obj (setField fs k v)
  | .arr es, k, v =>
      match canonicalIndex? k with
      | some i => .arr (es.set i v)
      | none => .arr es
  | o, _, _ => o

/-- Union of the keys of two values in `new Set([...keys(a), ...keys(b)])`
order: first occurrences, left to right. -/
def dedupFirst (seen : List String) : List String → List String
  | [] => []
  | x :: xs => if x ∈ seen then dedupFirst seen xs else x :: dedupFirst (x :: seen) xs

def jsUnionKeys (o n : JVal) : List String :=
  dedupFirst [] (jsKeys o ++ jsKeys n)

mutual

/-- Structural equality of JSON values.  On the pairs where the source
compares `JSON.stringify` outputs of two sorted arrays, stringification is
injective (object field order is preserved by parsing and kept by the
model), so structural equality is the faithful translation. -/
def jvalEqV : JVal → JVal → Bool
  | .null, .null => true
  | .bool a, .bool b => a == b
  | .num a, .num b => a == b
  | .str a, .str b => a == b
  | .arr as, .arr bs => jvalEqL as bs
  | .obj as, .obj bs => jvalEqFlds as bs
  | _, _ => false

def jvalEqL : List JVal → List JVal → Bool
  | [], [] => true
  | a :: as, b :: bs => jvalEqV a b && jvalEqL as bs
  | _, _ => false

def jvalEqFlds : List (String × JVal) → List (String × JVal) → Bool
  | [], [] => true
  | (k, a) :: as, (k', b) :: bs => k == k' && jvalEqV a b && jvalEqFlds as bs
  | _, _ => false

end

mutual

/-- JS `ToString` of a value: used only as the key of the default
`Array.prototype.sort` comparator.  Arrays join their elements with `","`
(null becoming `""` inside a join), objects print `"[object Object]"`. -/
def jsToString : JVal → String
  | .null => "null"
  | .bool b => if b then "true" else "false"
  | .num n => toString n
  | .str s => s
  | .arr es => jsJoin es
  | .obj _ => "[object Object]"

def jsJoin : List JVal → String
  | [] => ""
  | [e] => jsJoinElem e
  | e :: rest => jsJoinElem e ++ "," ++ jsJoin rest

/-- Element stringification inside `Array.prototype.join`: like `ToString`
except that `null` becomes the empty string. -/
def jsJoinElem : JVal → String
  | .null => ""
  | .bool b => if b then "true" else "false"
  | .num n => toString n
  | .str s => s
  | .arr es => jsJoin es
  | .obj _ => "[object Object]"

end

/-- Lexicographic order on code units, the comparison the default JS sort
comparator applies to the `ToString` keys. -/
def charListLt : List Char → List Char → Bool
  | [], [] => false
  | [], _ :: _ => true
  | _ :: _, [] => false
  | a :: as, b :: bs =>
      if a.toNat < b.toNat then true
      else if b.toNat < a.toNat then false
      else charListLt as bs

def jsStrLt (a b : String) : Bool := charListLt a.toList b.toList

/-- Stable insertion of an element into a list sorted by the default JS
comparator (compare `ToString` keys; insert after equal keys). -/
def sortInsert (x : JVal) : List JVal → List JVal
  | [] => [x]
  | y :: ys => if jsStrLt (jsToString x) (jsToString y) then x :: y :: ys else y :: sortInsert x ys

/-- `Array.prototype.sort()` with the default comparator: stable, ascending
by `ToString` key (V8's sort is stable, so any stable sort by the same key
order yields the same list). -/
def sortJs (es : List JVal) : List JVal := es.foldl (fun acc x => sortInsert x acc) []

/-- A change record as built by `detectFunctionalChanges.js`: a JS object
with a `type` tag and the optional fields the various sites attach
(`undefined` fields are `none`). -/
structure Change where
  type : String
  path : Option String := none
  file : Option String := none
  folder : Option String := none
  category : Option String := none
  oldVal : Option JVal := none
  newVal : Option JVal := none
  priority : Option String := none

/-- Write back the (possibly mutated) subvalue of one key; `none` means the
branch taken for that key does not mutate. -/
def applyUpd (o : JVal) (k : String) : Option JVal → JVal
  | none => o
  | some v => jsSet o k v

/-- The body of the per-key loop of `diffObjects`, parameterised by the
recursive call used in the object-object branch.  Returns the changes
pushed for this key together with the updated (sorted-in-place) old and
new subvalues, `none` when the key's branch does not mutate them. -/
def diffKeyGen (rec : JVal → JVal → String → List Change × JVal × JVal)
    (o n : JVal) (pfx k : String) : List Change × Option JVal × Option JVal :=
  let fullPath := if pfx = "" then k else pfx ++ "." ++ k
  match jsGet o k, jsGet n k with
  | none, none => ([], none, none)
  | none, some nv => ([{ type := "added", path := some fullPath, newVal := some nv }], none, none)
  | some ov, none => ([{ type := "removed", path := some fullPath, oldVal := some ov }], none, none)
  | some ov, some nv =>
    if jsTypeof ov ≠ jsTypeof nv then
      ([{ type := "modified", path := some fullPath, oldVal := some ov, newVal := some nv }],
       none, none)
    else
      match ov, nv with
      | .obj fs, .obj gs =>
          let r := rec (.obj fs) (.obj gs) fullPath
          (r.1, some r.2.1, some r.2.2)
      | .arr as, .arr bs =>
          let as' := sortJs as
          let bs' := sortJs bs
          (if jvalEqL as' bs' then []
           else [{ type := "modified", path := some fullPath,
                   oldVal := some (.arr as'), newVal := some (.arr bs') }],
           some (.arr as'), some (.arr bs'))
      | _, _ =>
          (if jvalEqV ov nv then []
           else [{ type := "modified", path := some fullPath,
                   oldVal := some ov, newVal := some nv }],
           none, none)

/-- `diffObjects(oldObj, newObj, pathPrefix)` with fuel, returning the
change list together with the post-call states of the two arguments (the
JS function mutates nested arrays by sorting them in place).  The JS loop
mutates each key's subvalues while iterating; since the deduplicated keys
address disjoint subvalues, this equals computing every key's result from
the original values and applying all writes, which is how the model
assembles the final states. -/
def diffD : Nat → JVal → JVal → String → List Change × JVal × JVal
  | 0, o, n, _ => ([], o, n)
  | f + 1, o, n, pfx =>
    let ks := jsUnionKeys o n
    (ks.foldr (fun k acc =>
        (diffKeyGen (fun a b q => diffD f a b q) o n pfx k).1 ++ acc) [],
     ks.foldl (fun acc k =>
        applyUpd acc k (diffKeyGen (fun a b q => diffD f a b q) o n pfx k).2.1) o,
     ks.foldl (fun acc k =>
        applyUpd acc k (diffKeyGen (fun a b q => diffD f a b q) o n pfx k).2.2) n)

/-- `diffObjects` of `detectFunctionalChanges.js`.  The fuel `jsizeV o +
jsizeV n` strictly bounds the recursion depth (each object-object step
descends into proper subvalues of both sides), so the truncation case of
`diffD` is never reached. -/
def diffObjects (o n : JVal) (pfx : String) : List Change × JVal × JVal :=
  diffD (jsizeV o + jsizeV n) o n pfx

/-- The ordered rule table `PRIORITY_RULES` (the `default` entry is the
final fallback below). -/
def PRIORITY_RULES : List (String × String) :=
  [("auth/", "P0"), ("security", "P0"), ("permissions", "P0"),
   ("authentication", "P0"), ("authorization", "P0"),
   ("actions/", "P1"), ("events/", "P1"), ("file-added", "P1"),
   ("file-removed", "P1"), ("folder-added", "P1"), ("folder-removed", "P1"),
   ("endpoint", "P1"), ("httpMethod", "P1"), ("inputFields", "P1"),
   ("outputFields", "P1"), ("trigger", "P1"), ("payload", "P1")]

/-- Does the first list lead the second (pattern starts the text)? -/
def leadsWith : List Char → List Char → Bool
  | [], _ => true
  | _ :: _, [] => false
  | a :: as, b :: bs => a == b && leadsWith as bs

/-- Does the pattern occur anywhere inside the text? -/
def occursIn (pat : List Char) : List Char → Bool
  | [] => pat.isEmpty
  | c :: rest => leadsWith pat (c :: rest) || occursIn pat rest

/-- JS `String.prototype.includes`: substring containment. -/
def jsIncludes (s pat : String) : Bool := occursIn pat.toList s.toList

/-- JS `String.prototype.endsWith`. -/
def strEndsWith (s suf : String) : Bool :=
  leadsWith suf.toList.reverse s.toList.reverse

/-- `x && x.includes(pat)` on an optional string field. -/
def optIncludes (o : Option String) (pat : String) : Bool :=
  match o with
  | some s => jsIncludes s pat
  | none => false

/-- `typeof v === "string" && v.includes(pat)` on an optional value field. -/
def strValIncludes (o : Option JVal) (pat : String) : Bool :=
  match o with
  | some (.str s) => jsIncludes s pat
  | _ => false

/-- The pattern loop of `determinePriority`: first matching rule wins. -/
def priorityRuleScan (c : Change) : List (String × String) → String
  | [] => "P2"
  | (pat, pr) :: rest =>
    if optIncludes c.path pat || optIncludes c.file pat ||
       optIncludes c.folder pat || jsIncludes c.type pat then pr
    else if c.type == "modified" &&
        (strValIncludes c.oldVal pat || strValIncludes c.newVal pat) then pr
    else priorityRuleScan c rest

/-- `determinePriority` of `detectFunctionalChanges.js`: the exact-category
check for `"auth"` short-circuits before the pattern table is scanned. -/
def determinePriority (c : Change) : String :=
  if c.category = some "auth" then "P0"
  else priorityRuleScan c PRIORITY_RULES

namespace DFC

/-- The fixed subfolder list `SUBFOLDERS` of `detectFunctionalChanges.js`. -/
def SUBFOLDERS : List String := ["actions", "auth", "events", "meta", "metadata"]

/-- The files of one category folder: directory entries (file name, parsed
content).  `loadJSON` returns `null` when a file fails to parse, so a parse
failure is entered as `JVal.null`; a file missing from the folder is simply
absent from the list. -/
abbrev FolderDir := List (String × JVal)

/-- One connector directory: its present subfolders by name. -/
abbrev ConnDir := List (String × FolderDir)

/-- One root (`previous` or `current`): the entries `readdirSync` lists,
each with its directory content (a plain file among the connectors is an
entry with no subfolders). -/
abbrev Root := List (String × ConnDir)

/-- `collectJSONFiles`: an absent folder yields the empty mapping;
otherwise the entries whose names end in `.json` (non-file entries are
not modelled; `readdirSync` order is the entry order). -/
def collectJSONFiles (sub : Option FolderDir) : List (String × JVal) :=
  match sub with
  | none => []
  | some entries => entries.filter fun e => strEndsWith e.1 ".json"

/-- `file.replace(".json", "")`: remove the first occurrence of `".json"`
(which is the extension for every collected file name). -/
def dropJsonChars : List Char → List Char
  | [] => []
  | c :: cs =>
      if leadsWith ".json".toList (c :: cs) then (c :: cs).drop 5
      else c :: dropJsonChars cs

def replaceJsonOnce (s : String) : String := String.mk (dropJsonChars s.toList)

/-- The change pushed for a file present only in `current` (or whose
previous content is falsy). -/
def fileAddedChange (sub fname : String) : Change :=
  { type := "file-added", file := some (sub ++ "/" ++ fname), category := some sub,
    priority := some (determinePriority
      { type := "file-added", file := some (sub ++ "/" ++ fname), category := some sub }) }

/-- The change pushed for a file present only in `previous` (or whose
current content is falsy). -/
def fileRemovedChange (sub fname : String) : Change :=
  { type := "file-removed", file := some (sub ++ "/" ++ fname), category := some sub,
    priority := some (determinePriority
      { type := "file-removed", file := some (sub ++ "/" ++ fname), category := some sub }) }

/-- `{...diff, category, priority}`: tag a raw diff with the category and
classify it. -/
def enhance (sub : String) (d : Change) : Change :=
  { d with category := some sub,
           priority := some (determinePriority { d with category := some sub }) }

/-- Truthiness of `prevFiles[file]`: an absent entry is `undefined`, hence
falsy. -/
def jsTruthyOpt : Option JVal → Bool
  | none => false
  | some v => jsTruthy v

/-- The body of the per-file loop of `compareConnectors`: presence is
decided by JS truthiness of the looked-up parsed content (`!oldJson` /
`!newJson`), not by file existence. -/
def processFile (sub fname : String) (o? n? : Option JVal) : List Change :=
  if !jsTruthyOpt o? then [fileAddedChange sub fname]
  else if !jsTruthyOpt n? then [fileRemovedChange sub fname]
  else
    let o := o?.getD .null   -- truthiness guarantees presence
    let n := n?.getD .null
    ((diffObjects o n (sub ++ "/" ++ replaceJsonOnce fname)).1).map (enhance sub)

/-- The `folder-added` event. -/
def folderAddedChange (sub : String) : Change :=
  { type := "folder-added", folder := some sub, category := some sub,
    priority := some (determinePriority
      { type := "folder-added", folder := some sub, category := some sub }) }

/-- The `folder-removed` event. -/
def folderRemovedChange (sub : String) : Change :=
  { type := "folder-removed", folder := some sub, category := some sub,
    priority := some (determinePriority
      { type := "folder-removed", folder := some sub, category := some sub }) }

/-- Changes one subfolder contributes for one connector: the per-file loop
over the union of file names, then the folder-presence events (the JS
pushes them after the loop). -/
def subfolderChanges (prevDir currDir : Option ConnDir) (sub : String) : List Change :=
  let prevSub := prevDir.bind fun d => lookupStr d sub
  let currSub := currDir.bind fun d => lookupStr d sub
  let prevFiles := collectJSONFiles prevSub
  let currFiles := collectJSONFiles currSub
  let allFiles := dedupFirst [] (prevFiles.map (·.1) ++ currFiles.map (·.1))
  let fileChanges := allFiles.foldr
    (fun f acc => processFile sub f (lookupStr prevFiles f) (lookupStr currFiles f) ++ acc) []
  let folderEvents :=
    match prevSub, currSub with
    | none, some _ => [folderAddedChange sub]
    | some _, none => [folderRemovedChange sub]
    | _, _ => []
  fileChanges ++ folderEvents

/-- One connector's report. -/
structure Report where
  connector : String
  changes : List Change
  processingError : Option String := none

/-- `compareConnectors(prevPath, currPath)` of `detectFunctionalChanges.js`:
if either root is missing the function logs and returns an empty result
list; otherwise one report per connector in the union of the two listings,
with the changes of the five fixed subfolders in order. -/
def compareConnectors (prev curr : Option Root) : List Report :=
  match prev, curr with
  | none, _ => []
  | _, none => []
  | some prevRoot, some currRoot =>
    let allConnectors := dedupFirst [] (prevRoot.map (·.1) ++ currRoot.map (·.1))
    allConnectors.map fun c =>
      { connector := c,
        changes := SUBFOLDERS.foldr
          (fun sub acc =>
            subfolderChanges (lookupStr prevRoot c) (lookupStr currRoot c) sub ++ acc) [] }

end DFC

def oktaPrevAuth : JVal :=
  .obj [("type", .str "OAuth2"), ("tokenUrl", .str "https://okta.com/oauth2/token")]

def oktaCurrAuth : JVal :=
  .obj [("type", .str "API Key"), ("keyName", .str "Authorization"), ("location", .str "header")]

/-- The canonical fixture: the `okta` connector with one `auth/auth.json`
file on each side. -/
def oktaPrevRoot : DFC.Root := [("okta", [("auth", [("auth.json", oktaPrevAuth)])])]

def oktaCurrRoot : DFC.Root := [("okta", [("auth", [("auth.json", oktaCurrAuth)])])]

namespace AdvComp

/-- One root as the modular engine sees it: `none` when `fs.access` fails
(path missing), otherwise the directory entries that are directories — the
connector names `listConnectors` returns.  -/
abbrev Root := List String

/-- `validatePaths` of the documented `AdvancedComparator` class: throws
only when both paths are missing; a one-sided absence merely logs a
warning. -/
def validatePaths (prev curr : Option Root) : Except String Unit :=
  match prev, curr with
  | none, none => .error "Both connector paths do not exist"
  | _, _ => .ok ()

/-- `listConnectors`: a missing root yields the empty listing. -/
def listConnectors (root : Option Root) : List String :=
  match root with
  | none => []
  | some cs => cs

/-- `compareConnectors` of the documented `AdvancedComparator` class:
validation, union of the two listings, and the per-connector try/catch.
The per-connector reconciliation `compareConnector` does filesystem work
whose failure modes (permission errors, unexpected entry types) are
environmental; it is abstracted as a function from the connector name to
either a change list or a thrown error message.  A failure is caught and
recorded as `{connector, changes: [], processingError}`; the outer catch
rethrows, so a `validatePaths` error is the only error result. -/
def compareConnectors (prev curr : Option Root)
    (reconcile : String → Except String (List Change)) :
    Except String (List DFC.Report) :=
  match validatePaths prev curr with
  | .error e => .error e
  | .ok _ =>
    let allConnectors := dedupFirst [] (listConnectors prev ++ listConnectors curr)
    .ok (allConnectors.map fun c =>
      match reconcile c with
      | .ok cs => { connector := c, changes := cs }
      | .error m => { connector := c, changes := [], processingError := some m })

end AdvComp

/-- The record `diffObjects` pushes for a key present only in the new
value. -/
def addedRec (P : String) (V : JVal) : Change :=
  { type := "added", path := some P, newVal := some V }

/-- The record `diffObjects` pushes for a key present only in the old
value. -/
def removedRec (P : String) (V : JVal) : Change :=
  { type := "removed", path := some P, oldVal := some V }

/-- Dotted concatenation of a key chain (`k1.k2...kn`). -/
def dotted : List String → String
  | [] => ""
  | [k] => k
  | k :: ks => k ++ "." ++ dotted ks

/-- A chain of union keys descending through pairs of nested objects: the
exact key sequences `diffObjects` can turn into a dotted path.  The first
key is an own key of the two compared values; deeper keys only arise after
stepping into a pair of objects, never through an array (arrays are
compared wholesale). -/
inductive PathChain : JVal → JVal → List String → Prop where
  | here (o n : JVal) (k : String) : k ∈ jsUnionKeys o n → PathChain o n [k]
  | step (o n : JVal) (k : String) (fs gs : List (String × JVal)) (ks : List String) :
      k ∈ jsUnionKeys o n → jsGet o k = some (.obj fs) → jsGet n k = some (.obj gs) →
      PathChain (.obj fs) (.obj gs) ks → PathChain o n (k :: ks)

/-- JSON values containing no array anywhere (the only values the JS sort
mutation can touch). -/
inductive ArrFree : JVal → Prop where
  | null : ArrFree .null
  | bool (b : Bool) : ArrFree (.bool b)
  | num (n : Int) : ArrFree (.num n)
  | str (s : String) : ArrFree (.str s)
  | obj (fs : List (String × JVal)) : (∀ p ∈ fs, ArrFree p.2) → ArrFree (.obj fs)

/-- C1 (amended): on the canonical okta fixture the legacy engine emits
exactly four changes for category `auth`, all Critical — one modified, one
removed, two added — but their paths carry the full
`category/filename-without-extension` invocation prefix `auth/auth`,
not the bare key names. -/
theorem okta_fixture_full_output :
    DFC.compareConnectors (some oktaPrevRoot) (some oktaCurrRoot) =
      [{ connector := "okta",
         changes :=
          [{ type := "modified", path := some "auth/auth.type",
             oldVal := some (.str "OAuth2"), newVal := some (.str "API Key"),
             category := some "auth", priority := some "P0" },
           { type := "removed", path := some "auth/auth.tokenUrl",
             oldVal := some (.str "https://okta.com/oauth2/token"),
             category := some "auth", priority := some "P0" },
           { type := "added", path := some "auth/auth.keyName",
             newVal := some (.str "Authorization"),
             category := some "auth", priority := some "P0" },
           { type := "added", path := some "auth/auth.location",
             newVal := some (.str "header"),
             category := some "auth", priority := some "P0" }] }] := rfl

/-- C1 (counterexample): the claim locates the four changes at the paths
`type`, `tokenUrl`, `keyName` and `location`, but no change produced by the
engine on the fixture carries any of those paths (they are prefixed with
`auth/auth.`). -/
theorem okta_fixture_no_bare_paths :
    (DFC.compareConnectors (some oktaPrevRoot) (some oktaCurrRoot)).all
      (fun r => r.changes.all fun c =>
        (c.path != some "type") && (c.path != some "tokenUrl") &&
        (c.path != some "keyName") && (c.path != some "location")) = true := rfl

theorem mem_dedupFirst (x : String) :
    ∀ (xs seen : List String), x ∈ dedupFirst seen xs ↔ x ∈ xs ∧ x ∉ seen := by
  intro xs
  induction xs with
  | nil => intro seen; simp [dedupFirst]
  | cons y ys ih =>
    intro seen
    by_cases hy : y ∈ seen
    · rw [dedupFirst, if_pos hy, ih]
      constructor
      · rintro ⟨h1, h2⟩
        exact ⟨List.mem_cons_of_mem _ h1, h2⟩
      · rintro ⟨h1, h2⟩
        rcases List.mem_cons.mp h1 with h | h
        · exact absurd (h ▸ hy) h2
        · exact ⟨h, h2⟩
    · rw [dedupFirst, if_neg hy]
      constructor
      · intro h
        rcases List.mem_cons.mp h with h | h
        · exact ⟨h ▸ List.mem_cons_self _ _, h ▸ hy⟩
        · rcases (ih _).mp h with ⟨h1, h2⟩
          refine ⟨List.mem_cons_of_mem _ h1, fun hs => h2 (List.mem_cons_of_mem _ hs)⟩
      · rintro ⟨h1, h2⟩
        rcases List.mem_cons.mp h1 with h | h
        · exact h ▸ List.mem_cons_self _ _
        · by_cases hxy : x = y
          · exact hxy ▸ List.mem_cons_self _ _
          · exact List.mem_cons_of_mem _
              ((ih _).mpr ⟨h, fun hs => (List.mem_cons.mp hs).elim hxy h2⟩)

theorem mem_foldr_append {α β : Type} (g : α → List β) (c : β) :
    ∀ ks : List α, (c ∈ ks.foldr (fun k acc => g k ++ acc) []) ↔ ∃ k ∈ ks, c ∈ g k := by
  intro ks
  induction ks with
  | nil => simp
  | cons k ks ih => simp [List.foldr_cons, ih]

theorem foldr_append_nil {α β : Type} (g : α → List β) :
    ∀ ks : List α, (∀ k ∈ ks, g k = []) → ks.foldr (fun k acc => g k ++ acc) [] = [] := by
  intro ks
  induction ks with
  | nil => intro _; rfl
  | cons k ks ih =>
    intro h
    simp only [List.foldr_cons, h k (List.mem_cons_self _ _), List.nil_append]
    exact ih fun k' hk' => h k' (List.mem_cons_of_mem _ hk')

theorem foldl_fixed {α β : Type} (step : α → β → α) (a : α) :
    ∀ ks : List β, (∀ k ∈ ks, step a k = a) → ks.foldl step a = a := by
  intro ks
  induction ks with
  | nil => intro _; rfl
  | cons k ks ih =>
    intro h
    rw [List.foldl_cons, h k (List.mem_cons_self _ _)]
    exact ih fun k' hk' => h k' (List.mem_cons_of_mem _ hk')

/-- C2: a change whose `category` is exactly `"auth"` is classified `"P0"`
(Critical) by the short-circuit at the top of `determinePriority`, before
the pattern table is consulted, whatever its other fields contain. -/
theorem auth_category_always_critical (c : Change) (h : c.category = some "auth") :
    determinePriority c = "P0" := by
  unfold determinePriority
  rw [if_pos h]

/-- Witness for C2 at a change whose path contains the Major-pattern
keyword `outputFields`. -/
theorem auth_category_always_critical_witness :
    determinePriority
      { type := "modified", path := some "auth.outputFields",
        category := some "auth", oldVal := some (.str "a"), newVal := some (.str "b") } = "P0" :=
  auth_category_always_critical _ rfl

/-- C10: when both compared top-level contents are numbers, or both are
booleans, `diffObjects` derives its key set from `Object.keys`, which is
empty for such values, so the diff is empty even when the values differ. -/
theorem primitive_roots_diff_empty :
    (∀ (a b : Int) (pfx : String), (diffObjects (.num a) (.num b) pfx).1 = []) ∧
    (∀ (x y : Bool) (pfx : String), (diffObjects (.bool x) (.bool y) pfx).1 = []) :=
  ⟨fun _ _ _ => rfl, fun _ _ _ => rfl⟩

/-- C9: in the per-file loop, presence is decided by JS truthiness of the
parsed content, so a falsy previous content (null — including a parse
failure — false, 0 or "") yields a single `file-added` change without any
diff, and a truthy previous with falsy current content yields a single
`file-removed`. -/
theorem falsy_content_is_absent (sub fname : String) (o n : JVal) :
    (jsTruthy o = false →
      DFC.processFile sub fname (some o) (some n) = [DFC.fileAddedChange sub fname]) ∧
    (jsTruthy o = true → jsTruthy n = false →
      DFC.processFile sub fname (some o) (some n) = [DFC.fileRemovedChange sub fname]) := by
  constructor
  · intro h
    unfold DFC.processFile
    simp [DFC.jsTruthyOpt, h]
  · intro h1 h2
    unfold DFC.processFile
    simp [DFC.jsTruthyOpt, h1, h2]

/-- Witness for C9: a previous content of `null` (as a parse failure loads)
with an object current content, and the symmetric falsy-current case. -/
theorem falsy_content_is_absent_witness :
    DFC.processFile "auth" "auth.json" (some .null) (some (.obj []))
        = [DFC.fileAddedChange "auth" "auth.json"] ∧
    DFC.processFile "auth" "auth.json" (some (.obj [])) (some (.num 0))
        = [DFC.fileRemovedChange "auth" "auth.json"] :=
  ⟨(falsy_content_is_absent "auth" "auth.json" .null (.obj [])).1 rfl,
   (falsy_content_is_absent "auth" "auth.json" (.obj []) (.num 0)).2 rfl rfl⟩

/-- The per-connector loop names each report after its connector. -/
theorem reports_connector_names (reconcile : String → Except String (List Change)) :
    ∀ l : List String,
      (l.map fun c =>
        match reconcile c with
        | .ok cs => ({ connector := c, changes := cs } : DFC.Report)
        | .error m => { connector := c, changes := [], processingError := some m }).map
          (·.connector) = l := by
  intro l
  induction l with
  | nil => rfl
  | cons c cs ih =>
    simp only [List.map_cons, ih]
    cases reconcile c <;> rfl

/-- C3: the modular engine's run errors exactly when both roots are
missing; with one root missing it proceeds and returns one report per
connector listed in the surviving root. -/
theorem batch_fails_only_when_both_roots_missing :
    (∀ (prev curr : Option AdvComp.Root) reconcile,
      (∃ e, AdvComp.compareConnectors prev curr reconcile = .error e) ↔
        (prev = none ∧ curr = none)) ∧
    (∀ (l : List String) reconcile,
      (AdvComp.compareConnectors none (some l) reconcile).map
          (fun rs => rs.map (·.connector)) = .ok (dedupFirst [] l) ∧
      (AdvComp.compareConnectors (some l) none reconcile).map
          (fun rs => rs.map (·.connector)) = .ok (dedupFirst [] l)) := by
  constructor
  · intro prev curr reconcile
    constructor
    · rintro ⟨e, he⟩
      match prev, curr with
      | none, none => exact ⟨rfl, rfl⟩
      | some l, _ => simp [AdvComp.compareConnectors, AdvComp.validatePaths] at he
      | none, some l => simp [AdvComp.compareConnectors, AdvComp.validatePaths] at he
    · rintro ⟨h1, h2⟩
      subst h1; subst h2
      exact ⟨"Both connector paths do not exist", rfl⟩
  · intro l reconcile
    constructor
    · simp only [AdvComp.compareConnectors, AdvComp.validatePaths, AdvComp.listConnectors,
        List.nil_append, Except.map]
      congr 1
      exact reports_connector_names reconcile (dedupFirst [] l)
    · simp only [AdvComp.compareConnectors, AdvComp.validatePaths, AdvComp.listConnectors,
        List.append_nil, Except.map]
      congr 1
      exact reports_connector_names reconcile (dedupFirst [] l)

/-- C6: when reconciling one connector throws, the modular engine catches
the error and emits a report with an empty change list and the error
message as `processingError`, still returning one report per connector in
the union (the exception does not escape the run). -/
theorem connector_error_is_isolated (prev curr : Option AdvComp.Root)
    (reconcile : String → Except String (List Change)) (c msg : String)
    (hv : ¬(prev = none ∧ curr = none)) (hr : reconcile c = .error msg) :
    ∃ reports, AdvComp.compareConnectors prev curr reconcile = .ok reports ∧
      reports.map (·.connector) =
        dedupFirst [] (AdvComp.listConnectors prev ++ AdvComp.listConnectors curr) ∧
      ∀ rep ∈ reports, rep.connector = c →
        rep.changes = [] ∧ rep.processingError = some msg := by
  have hval : AdvComp.validatePaths prev curr = .ok () := by
    match prev, curr with
    | none, none => exact absurd ⟨rfl, rfl⟩ hv
    | some _, _ => rfl
    | none, some _ => rfl
  refine ⟨_, by rw [AdvComp.compareConnectors, hval], ?_, ?_⟩
  · exact reports_connector_names reconcile _
  · intro rep hrep hc
    rcases List.mem_map.mp hrep with ⟨c', _, hmk⟩
    by_cases hcc : c' = c
    · subst hcc
      rw [hr] at hmk
      rw [← hmk]
      exact ⟨rfl, rfl⟩
    · exfalso
      apply hcc
      rw [← hc, ← hmk]
      cases reconcile c' <;> rfl

/-- Witness for C6: connector `"b"` of the previous root fails with
`"boom"` while the current root is missing; the batch still returns both
reports and records the failure on `"b"`. -/
theorem connector_error_is_isolated_witness :
    ∃ reports,
      AdvComp.compareConnectors (some ["a", "b"]) none
          (fun c => if c = "b" then .error "boom" else .ok []) = .ok reports ∧
      reports.map (·.connector) =
        dedupFirst [] (AdvComp.listConnectors (some ["a", "b"]) ++ AdvComp.listConnectors none) ∧
      ∀ rep ∈ reports, rep.connector = "b" →
        rep.changes = [] ∧ rep.processingError = some "boom" :=
  connector_error_is_isolated (some ["a", "b"]) none _ "b" "boom"
    (by simp) (by simp)

/-- C5 (counterexample): for a file `auth.json` of category `auth` the
structural differ is invoked with prefix `auth/auth`, not the bare base
name `auth`, so the produced path is `auth/auth.a` rather than the `auth.a`
the claim predicts; moreover a file whose top-level content is an array
yields a path containing the array index `0`. -/
theorem diff_paths_carry_category_and_indices :
    (DFC.processFile "auth" "auth.json"
        (some (.obj [("a", .num 1)])) (some (.obj [("a", .num 2)]))).map
      (fun c => c.path) = [some "auth/auth.a"] ∧
    ("auth/auth.a" : String) ≠ "auth.a" ∧
    (diffObjects (.arr [.num 1]) (.arr [.num 2]) "actions/list").1.map
      (fun c => c.path) = [some "actions/list.0"] :=
  ⟨rfl, by decide, rfl⟩

/-- C4 (counterexample): `diffObjects` is not side-effect-free: diffing a
value against an equal value whose nested array is unsorted sorts that
array in place, so the first argument's post-call state differs from its
initial state even though the change list is empty. -/
theorem diff_sorts_input_arrays_in_place :
    (diffObjects (.obj [("a", .arr [.num 2, .num 1])])
        (.obj [("a", .arr [.num 2, .num 1])]) "").2.1
      = .obj [("a", .arr [.num 1, .num 2])] ∧
    (diffObjects (.obj [("a", .arr [.num 2, .num 1])])
        (.obj [("a", .arr [.num 2, .num 1])]) "").1 = [] ∧
    (JVal.obj [("a", .arr [.num 1, .num 2])]) ≠ (JVal.obj [("a", .arr [.num 2, .num 1])]) := by
  refine ⟨rfl, rfl, ?_⟩
  intro h
  injection h with h1
  injection h1 with h2 h3
  injection h2 with h4 h5
  injection h5 with h6
  injection h6 with h7 h8
  injection h7 with h9
  exact absurd h9 (by decide)

mutual

theorem jvalEqV_refl : ∀ v : JVal, jvalEqV v v = true
  | .null => rfl
  | .bool b => by simp [jvalEqV]
  | .num n => by simp [jvalEqV]
  | .str s => by simp [jvalEqV]
  | .arr es => by simp [jvalEqV, jvalEqL_refl es]
  | .obj fs => by simp [jvalEqV, jvalEqFlds_refl fs]

theorem jvalEqL_refl : ∀ l : List JVal, jvalEqL l l = true
  | [] => rfl
  | v :: vs => by simp [jvalEqL, jvalEqV_refl v, jvalEqL_refl vs]

theorem jvalEqFlds_refl : ∀ l : List (String × JVal), jvalEqFlds l l = true
  | [] => rfl
  | (k, v) :: vs => by simp [jvalEqFlds, jvalEqV_refl v, jvalEqFlds_refl vs]

end

theorem diffD_refl_changes : ∀ (f : Nat) (x : JVal) (pfx : String), (diffD f x x pfx).1 = [] := by
  intro f
  induction f with
  | zero => intro x pfx; rfl
  | succ f ih =>
    intro x pfx
    simp only [diffD]
    apply foldr_append_nil
    intro k _
    rcases h : jsGet x k with _ | v
    · simp [diffKeyGen, h]
    · cases v with
      | null => simp [diffKeyGen, h, jvalEqV]
      | bool b => simp [diffKeyGen, h, jvalEqV]
      | num n => simp [diffKeyGen, h, jvalEqV]
      | str s => simp [diffKeyGen, h, jvalEqV]
      | arr es => simp [diffKeyGen, h, jvalEqL_refl]
      | obj fs => simp [diffKeyGen, h, ih]

/-- C7: diffing any JSON value against itself yields the empty change
list, whatever the path prefix. -/
theorem diff_reflexive (x : JVal) (pfx : String) : (diffObjects x x pfx).1 = [] :=
  diffD_refl_changes _ x pfx

theorem jsUnionKeys_mem_comm (k : String) (a b : JVal) :
    k ∈ jsUnionKeys a b ↔ k ∈ jsUnionKeys b a := by
  simp [jsUnionKeys, mem_dedupFirst, List.mem_append, or_comm]

theorem diffKey_added_removed (f : Nat)
    (ih : ∀ (a b : JVal) (q P : String) (V : JVal),
      (addedRec P V ∈ (diffD f a b q).1) ↔ (removedRec P V ∈ (diffD f b a q).1))
    (a b : JVal) (pfx k P : String) (V : JVal) :
    (addedRec P V ∈ (diffKeyGen (fun x y q => diffD f x y q) a b pfx k).1) ↔
    (removedRec P V ∈ (diffKeyGen (fun x y q => diffD f x y q) b a pfx k).1) := by
  rcases ho : jsGet a k with _ | ov <;> rcases hn : jsGet b k with _ | nv
  · simp [diffKeyGen, ho, hn]
  · simp [diffKeyGen, ho, hn, addedRec, removedRec, Change.mk.injEq]
  · simp [diffKeyGen, ho, hn, addedRec, removedRec, Change.mk.injEq]
  · cases ov <;> cases nv <;>
      first
      | (simp only [diffKeyGen, ho, hn]
         simp [jsTypeof]
         exact ih _ _ _ _ _)
      | (constructor <;> intro hm <;> exfalso <;> revert hm <;>
          simp only [diffKeyGen, ho, hn] <;> split_ifs <;>
          simp [addedRec, removedRec, Change.mk.injEq])

theorem diffD_added_removed_symm :
    ∀ (f : Nat) (a b : JVal) (pfx P : String) (V : JVal),
      (addedRec P V ∈ (diffD f a b pfx).1) ↔ (removedRec P V ∈ (diffD f b a pfx).1) := by
  intro f
  induction f with
  | zero => intro a b pfx P V; simp [diffD]
  | succ f ih =>
    intro a b pfx P V
    simp only [diffD]
    rw [mem_foldr_append, mem_foldr_append]
    constructor
    · rintro ⟨k, hk, hmem⟩
      exact ⟨k, (jsUnionKeys_mem_comm k a b).mp hk,
        (diffKey_added_removed f ih a b pfx k P V).mp hmem⟩
    · rintro ⟨k, hk, hmem⟩
      exact ⟨k, (jsUnionKeys_mem_comm k b a).mp hk,
        (diffKey_added_removed f ih a b pfx k P V).mpr hmem⟩

/-- C8: `diffObjects a b` reports `added` at a path with a value exactly
when `diffObjects b a` reports `removed` at that path with that value. -/
theorem diff_added_removed_symmetric (a b : JVal) (pfx P : String) (V : JVal) :
    (addedRec P V ∈ (diffObjects a b pfx).1) ↔
    (removedRec P V ∈ (diffObjects b a pfx).1) := by
  unfold diffObjects
  rw [Nat.add_comm (jsizeV b) (jsizeV a)]
  exact diffD_added_removed_symm _ a b pfx P V

theorem lookupStr_mem {α : Type} :
    ∀ (fs : List (String × α)) (k : String) (v : α),
      lookupStr fs k = some v → ∃ k', (k', v) ∈ fs := by
  intro fs
  induction fs with
  | nil => intro k v h; simp [lookupStr] at h
  | cons p rest ih =>
    intro k v h
    obtain ⟨k', v'⟩ := p
    by_cases hk : k' = k
    · rw [lookupStr, if_pos hk] at h
      exact ⟨k', by rw [Option.some.inj h]; exact List.mem_cons_self _ _⟩
    · rw [lookupStr, if_neg hk] at h
      obtain ⟨k'', hk''⟩ := ih k v h
      exact ⟨k'', List.mem_cons_of_mem _ hk''⟩

theorem arrfree_jsGet (o : JVal) (k : String) (v : JVal)
    (h : jsGet o k = some v) (ho : ArrFree o) : ArrFree v := by
  cases ho with
  | null => simp [jsGet] at h
  | bool b => simp [jsGet] at h
  | num n => simp [jsGet] at h
  | str s =>
    rcases hci : canonicalIndex? k with _ | i
    · simp [jsGet, hci] at h
    · simp only [jsGet, hci, Option.some_bind] at h
      rcases hc : s.toList.get? i with _ | c
      · rw [hc] at h; simp at h
      · rw [hc] at h
        have h' : JVal.str (String.mk [c]) = v := by simpa using h
        rw [← h']
        exact ArrFree.str _
  | obj fs hfs =>
    rw [jsGet] at h
    obtain ⟨k', hk'⟩ := lookupStr_mem fs k v h
    exact hfs _ hk'

theorem setField_self :
    ∀ (fs : List (String × JVal)) (k : String) (v : JVal),
      lookupStr fs k = some v → setField fs k v = fs := by
  intro fs
  induction fs with
  | nil => intro k v h; rfl
  | cons p rest ih =>
    intro k v h
    obtain ⟨k', v'⟩ := p
    by_cases hk : k' = k
    · rw [lookupStr, if_pos hk] at h
      rw [setField, if_pos hk, Option.some.inj h]
    · rw [lookupStr, if_neg hk] at h
      rw [setField, if_neg hk, ih k v h]

theorem list_set_self :
    ∀ (es : List JVal) (i : Nat) (v : JVal), es.get? i = some v → es.set i v = es := by
  intro es
  induction es with
  | nil => intro i v h; simp at h
  | cons e rest ih =>
    intro i v h
    cases i with
    | zero =>
      simp only [List.get?] at h
      rw [List.set, Option.some.inj h]
    | succ i =>
      simp only [List.get?] at h
      rw [List.set, ih i v h]

theorem jsSet_self (o : JVal) (k : String) (v : JVal)
    (h : jsGet o k = some v) : jsSet o k v = o := by
  cases o with
  | null => rfl
  | bool b => rfl
  | num n => rfl
  | str s => rfl
  | obj fs =>
    rw [jsGet] at h
    rw [jsSet, setField_self fs k v h]
  | arr es =>
    rcases hci : canonicalIndex? k with _ | i
    · simp [jsGet, hci] at h
    · simp only [jsGet, hci, Option.some_bind] at h
      rw [jsSet, hci]
      show JVal.arr (es.set i v) = JVal.arr es
      rw [list_set_self es i v h]

theorem diffD_no_mutation :
    ∀ (f : Nat) (a b : JVal) (pfx : String), ArrFree a → ArrFree b →
      (diffD f a b pfx).2.1 = a ∧ (diffD f a b pfx).2.2 = b := by
  intro f
  induction f with
  | zero => intro a b pfx _ _; exact ⟨rfl, rfl⟩
  | succ f ih =>
    intro a b pfx ha hb
    simp only [diffD]
    constructor
    · apply foldl_fixed
      intro k _
      rcases ho : jsGet a k with _ | ov <;> rcases hn : jsGet b k with _ | nv
      · simp [diffKeyGen, ho, hn, applyUpd]
      · simp [diffKeyGen, ho, hn, applyUpd]
      · simp [diffKeyGen, ho, hn, applyUpd]
      · have hov := arrfree_jsGet a k ov ho ha
        have hnv := arrfree_jsGet b k nv hn hb
        cases hov <;> cases hnv <;>
          first
          | (rename_i fs hfs gs hgs
             simp only [diffKeyGen, ho, hn]
             simp [jsTypeof]
             rw [(ih _ _ _ (ArrFree.obj fs hfs) (ArrFree.obj gs hgs)).1]
             exact jsSet_self a k _ ho)
          | (simp only [diffKeyGen, ho, hn]
             split_ifs <;> simp [applyUpd])
    · apply foldl_fixed
      intro k _
      rcases ho : jsGet a k with _ | ov <;> rcases hn : jsGet b k with _ | nv
      · simp [diffKeyGen, ho, hn, applyUpd]
      · simp [diffKeyGen, ho, hn, applyUpd]
      · simp [diffKeyGen, ho, hn, applyUpd]
      · have hov := arrfree_jsGet a k ov ho ha
        have hnv := arrfree_jsGet b k nv hn hb
        cases hov <;> cases hnv <;>
          first
          | (rename_i fs hfs gs hgs
             simp only [diffKeyGen, ho, hn]
             simp [jsTypeof]
             rw [(ih _ _ _ (ArrFree.obj fs hfs) (ArrFree.obj gs hgs)).2]
             exact jsSet_self b k _ hn)
          | (simp only [diffKeyGen, ho, hn]
             split_ifs <;> simp [applyUpd])

/-- C4 (amended): `diffObjects` computes its change list as a function of
its arguments, but it is side-effect-free only on inputs containing no
arrays: both arguments come back unchanged whenever they are array-free
(when two arrays meet at the same key both are sorted in place, see the
counterexample). -/
theorem diff_no_mutation_on_array_free_inputs (a b : JVal) (pfx : String)
    (ha : ArrFree a) (hb : ArrFree b) :
    (diffObjects a b pfx).2.1 = a ∧ (diffObjects a b pfx).2.2 = b :=
  diffD_no_mutation _ a b pfx ha hb

/-- Witness for the amended C4 at two concrete array-free objects. -/
theorem diff_no_mutation_on_array_free_inputs_witness :
    (diffObjects (.obj [("k", .str "x")]) (.obj [("k", .str "y")]) "auth/auth").2.1
        = .obj [("k", .str "x")] ∧
    (diffObjects (.obj [("k", .str "x")]) (.obj [("k", .str "y")]) "auth/auth").2.2
        = .obj [("k", .str "y")] :=
  diff_no_mutation_on_array_free_inputs _ _ _
    (ArrFree.obj _ fun p hp => by
      rcases List.mem_singleton.mp hp with rfl
      exact ArrFree.str _)
    (ArrFree.obj _ fun p hp => by
      rcases List.mem_singleton.mp hp with rfl
      exact ArrFree.str _)

theorem dotted_cons (k : String) (ks : List String) (h : ks ≠ []) :
    dotted (k :: ks) = k ++ "." ++ dotted ks := by
  cases ks with
  | nil => exact absurd rfl h
  | cons a l => rfl

theorem dot_append_ne_empty (p k : String) : p ++ "." ++ k ≠ "" := by
  intro h
  have h2 := congrArg String.length h
  rw [String.length_append, String.length_append] at h2
  have h3 : (".").length = 1 := rfl
  have h0 : ("" : String).length = 0 := rfl
  omega

theorem path_of_mem_ite_modified (cnd : Bool) (fp : String) (a1 a2 : JVal) (c : Change)
    (h : c ∈ (if cnd then ([] : List Change) else
      [{ type := "modified", path := some fp, oldVal := some a1, newVal := some a2 }])) :
    c.path = some fp := by
  cases cnd
  · simp only [Bool.false_eq_true, if_false, List.mem_singleton] at h
    subst h; rfl
  · simp at h

theorem diffKeyGen_mem_cases (rec : JVal → JVal → String → List Change × JVal × JVal)
    (o n : JVal) (pfx k : String) (c : Change)
    (hmem : c ∈ (diffKeyGen rec o n pfx k).1) :
    c.path = some (if pfx = "" then k else pfx ++ "." ++ k) ∨
    (∃ fs gs, jsGet o k = some (.obj fs) ∧ jsGet n k = some (.obj gs) ∧
      c ∈ (rec (.obj fs) (.obj gs) (if pfx = "" then k else pfx ++ "." ++ k)).1) := by
  rcases ho : jsGet o k with _ | ov <;> rcases hn : jsGet n k with _ | nv <;>
    simp only [diffKeyGen, ho, hn] at hmem
  · simp at hmem
  · left
    simp only [List.mem_singleton] at hmem
    subst hmem; rfl
  · left
    simp only [List.mem_singleton] at hmem
    subst hmem; rfl
  · by_cases ht : jsTypeof ov ≠ jsTypeof nv
    · rw [if_pos ht] at hmem
      left
      simp only [List.mem_singleton] at hmem
      subst hmem; rfl
    · rw [if_neg ht] at hmem
      cases ov <;> cases nv <;> simp only [] at hmem
      case neg.obj.obj fs gs =>
        right
        exact ⟨fs, gs, rfl, rfl, hmem⟩
      all_goals left
      all_goals exact path_of_mem_ite_modified _ _ _ _ _ hmem

theorem diffD_path_shape :
    ∀ (f : Nat) (o n : JVal) (pfx : String) (c : Change), pfx ≠ "" →
      c ∈ (diffD f o n pfx).1 →
      ∃ ks, ks ≠ [] ∧ PathChain o n ks ∧ c.path = some (pfx ++ "." ++ dotted ks) := by
  intro f
  induction f with
  | zero => intro o n pfx c hp hc; simp [diffD] at hc
  | succ f ih =>
    intro o n pfx c hp hc
    simp only [diffD] at hc
    rw [mem_foldr_append] at hc
    obtain ⟨k, hk, hmem⟩ := hc
    rcases diffKeyGen_mem_cases _ o n pfx k c hmem with hpath | ⟨fs, gs, ho, hn, hrec⟩
    · refine ⟨[k], by simp, PathChain.here o n k hk, ?_⟩
      rw [hpath, if_neg hp]
      rfl
    · rw [if_neg hp] at hrec
      obtain ⟨ks', hne, hchain, hpath⟩ :=
        ih (.obj fs) (.obj gs) (pfx ++ "." ++ k) c (dot_append_ne_empty pfx k) hrec
      refine ⟨k :: ks', by simp, PathChain.step o n k fs gs ks' hk ho hn hchain, ?_⟩
      rw [hpath, dotted_cons k ks' hne]
      congr 1
      simp [String.append_assoc]

/-- C5 (amended): for a file present in both folders with truthy contents
the differ is invoked with prefix `category ++ "/" ++ fileName` with the
first `".json"` removed — not the bare base name — and every change's path
is that prefix, a dot, and a dotted chain of own keys descending only
through pairs of nested objects (array indices can enter a path only as
own keys of non-object top-level contents; nested arrays are compared
wholesale and contribute no index components). -/
theorem diff_invocation_and_path_shape :
    (∀ (sub fname : String) (o n : JVal), jsTruthy o = true → jsTruthy n = true →
      DFC.processFile sub fname (some o) (some n) =
        ((diffObjects o n (sub ++ "/" ++ DFC.replaceJsonOnce fname)).1).map (DFC.enhance sub)) ∧
    (∀ (o n : JVal) (pfx : String) (c : Change), pfx ≠ "" →
      c ∈ (diffObjects o n pfx).1 →
      ∃ ks, ks ≠ [] ∧ PathChain o n ks ∧ c.path = some (pfx ++ "." ++ dotted ks)) := by
  constructor
  · intro sub fname o n h1 h2
    unfold DFC.processFile
    simp [DFC.jsTruthyOpt, h1, h2]
  · intro o n pfx c hp hc
    exact diffD_path_shape _ o n pfx c hp hc

/-- Witness for the amended C5: the okta auth file pair, whose invocation
prefix is `auth/auth`. -/
theorem diff_invocation_and_path_shape_witness :
    DFC.processFile "auth" "auth.json" (some oktaPrevAuth) (some oktaCurrAuth) =
      ((diffObjects oktaPrevAuth oktaCurrAuth ("auth" ++ "/" ++ DFC.replaceJsonOnce "auth.json")).1).map
        (DFC.enhance "auth") :=
  diff_invocation_and_path_shape.1 "auth" "auth.json" oktaPrevAuth oktaCurrAuth rfl rfl

theorem jsizeV_pos : ∀ v : JVal, 1 ≤ jsizeV v := by
  intro v
  cases v <;> simp [jsizeV]

theorem jsize_mem_flds :
    ∀ (fs : List (String × JVal)) (p : String × JVal), p ∈ fs →
      jsizeV p.2 < 1 + jsizeFlds fs := by
  intro fs
  induction fs with
  | nil => intro p hp; simp at hp
  | cons x rest ih =>
    intro p hp
    obtain ⟨k', v'⟩ := x
    rcases List.mem_cons.mp hp with h | h
    · subst h
      simp only [jsizeFlds]
      omega
    · have := ih p h
      simp only [jsizeFlds]
      omega

theorem jsize_mem_list :
    ∀ (es : List JVal) (v : JVal), v ∈ es → jsizeV v < 1 + jsizeL es := by
  intro es
  induction es with
  | nil => intro v hv; simp at hv
  | cons e rest ih =>
    intro v hv
    rcases List.mem_cons.mp hv with h | h
    · subst h
      simp only [jsizeL]
      omega
    · have := ih v h
      simp only [jsizeL]
      omega

theorem jsGet_obj_size (o : JVal) (k : String) (fs : List (String × JVal))
    (h : jsGet o k = some (.obj fs)) : jsizeV (.obj fs) < jsizeV o := by
  cases o with
  | null => simp [jsGet] at h
  | bool b => simp [jsGet] at h
  | num n => simp [jsGet] at h
  | str s =>
    rcases hci : canonicalIndex? k with _ | i
    · simp [jsGet, hci] at h
    · simp only [jsGet, hci, Option.some_bind] at h
      rcases hc : s.toList.get? i with _ | c
      · rw [hc] at h; simp at h
      · rw [hc] at h; simp at h
  | obj fs' =>
    rw [jsGet] at h
    obtain ⟨k', hk'⟩ := lookupStr_mem fs' k _ h
    have := jsize_mem_flds fs' (k', JVal.obj fs) hk'
    simpa [jsizeV] using this
  | arr es =>
    rcases hci : canonicalIndex? k with _ | i
    · simp [jsGet, hci] at h
    · simp only [jsGet, hci, Option.some_bind] at h
      have hm := List.get?_mem h
      have := jsize_mem_list es (JVal.obj fs) hm
      simpa [jsizeV] using this

theorem foldr_append_congr (g1 g2 : String → List Change) :
    ∀ ks : List String, (∀ k ∈ ks, g1 k = g2 k) →
      ks.foldr (fun k acc => g1 k ++ acc) [] = ks.foldr (fun k acc => g2 k ++ acc) [] := by
  intro ks
  induction ks with
  | nil => intro _; rfl
  | cons k rest ih =>
    intro h
    simp only [List.foldr_cons, h k (List.mem_cons_self _ _),
      ih fun k' hk' => h k' (List.mem_cons_of_mem _ hk')]

theorem foldl_upd_congr (u1 u2 : String → Option JVal) :
    ∀ (ks : List String) (a : JVal), (∀ k ∈ ks, u1 k = u2 k) →
      ks.foldl (fun acc k => applyUpd acc k (u1 k)) a =
      ks.foldl (fun acc k => applyUpd acc k (u2 k)) a := by
  intro ks
  induction ks with
  | nil => intro a _; rfl
  | cons k rest ih =>
    intro a h
    simp only [List.foldl_cons, h k (List.mem_cons_self _ _)]
    exact ih _ fun k' hk' => h k' (List.mem_cons_of_mem _ hk')

theorem diffKeyGen_congr (r1 r2 : JVal → JVal → String → List Change × JVal × JVal)
    (o n : JVal) (pfx k : String)
    (h : ∀ fs gs, jsGet o k = some (.obj fs) → jsGet n k = some (.obj gs) →
      r1 (.obj fs) (.obj gs) (if pfx = "" then k else pfx ++ "." ++ k) =
      r2 (.obj fs) (.obj gs) (if pfx = "" then k else pfx ++ "." ++ k)) :
    diffKeyGen r1 o n pfx k = diffKeyGen r2 o n pfx k := by
  rcases ho : jsGet o k with _ | ov <;> rcases hn : jsGet n k with _ | nv <;>
    simp only [diffKeyGen, ho, hn]
  by_cases ht : jsTypeof ov ≠ jsTypeof nv
  · rw [if_pos ht, if_pos ht]
  · rw [if_neg ht, if_neg ht]
    cases ov <;> cases nv <;> simp only []
    case neg.obj.obj fs gs => rw [h fs gs ho hn]

theorem diffD_fuel_irrelevant :
    ∀ (f g : Nat) (o n : JVal) (pfx : String),
      jsizeV o + jsizeV n ≤ f → jsizeV o + jsizeV n ≤ g →
      diffD f o n pfx = diffD g o n pfx := by
  intro f
  induction f with
  | zero =>
    intro g o n pfx hf _
    have h1 := jsizeV_pos o
    have h2 := jsizeV_pos n
    omega
  | succ f ih =>
    intro g o n pfx hf hg
    cases g with
    | zero =>
      have h1 := jsizeV_pos o
      have h2 := jsizeV_pos n
      omega
    | succ g =>
      have key : ∀ k, diffKeyGen (fun a b q => diffD f a b q) o n pfx k =
          diffKeyGen (fun a b q => diffD g a b q) o n pfx k := by
        intro k
        apply diffKeyGen_congr
        intro fs gs ho hn
        have hs1 := jsGet_obj_size o k fs ho
        have hs2 := jsGet_obj_size n k gs hn
        exact ih g (.obj fs) (.obj gs) _ (by omega) (by omega)
      simp only [diffD]
      refine congrArg₂ _ ?_ (congrArg₂ _ ?_ ?_)
      · exact foldr_append_congr _ _ _ fun k _ => congrArg (·.1) (key k)
      · exact foldl_upd_congr _ _ _ o fun k _ => congrArg (·.2.1) (key k)
      · exact foldl_upd_congr _ _ _ n fun k _ => congrArg (·.2.2) (key k)
